import Mathlib

/-!
The class `graph_base` of `edu::princeton::cs::algs4`.

A shallow embedding of `src/edu/princeton/cs/algs4/graph_base.h`.

* `size_t` values are natural numbers below `2 ^ 64`, `vertex_type`
  (`uint32_t`) values are natural numbers below `2 ^ 32`; the only place
  where the source does arithmetic on them is the loop counter `i++`, which
  is embedded as `(i + 1) % 2 ^ 32`.
* A thrown C++ exception is the `Except.error` result.
* A `double` is an IEEE 754 binary64 value; its arithmetic is exact
  arithmetic followed by rounding to nearest, ties to even.
* The pure virtual hook `get_num_adj` of the concrete subclass is a
  function argument.
* A `for` loop is a fuel-indexed function: it returns `none` when the fuel
  runs out before the loop condition fails, and `some r` when the loop
  exits with result `r`.
-/

namespace algs4

/-! ## Data model -/

/-- Number of values of `graph_base::vertex_type`, which is `uint32_t`. -/
def vertex_type_size : Nat := 2 ^ 32

/-- The value `std::numeric_limits<size_t>::max()` (64-bit `size_t`). -/
def size_t_max : Nat := 2 ^ 64 - 1

/-- The two private data members of `graph_base`, in declaration order. -/
structure graph_base where
  nedges : Nat
  nvertices : Nat
  deriving DecidableEq, Repr

/-- The exception `std::invalid_argument`, carrying its `what()` text. -/
inductive exception where
  | invalid_argument (what : String)
  deriving DecidableEq, Repr

/-- A value of the C++ type `double` (IEEE 754 binary64) that is not
negative: `finite m x` is the number `m * 2 ^ x / 2 ^ 1074`, with
`m < 2 ^ 53`, `x ≤ 2045`, and `2 ^ 52 ≤ m` unless `x = 0` (so that every
number has one representation; `x = 0` holds zero and the subnormal
numbers); `inf` is positive infinity and `nan` a not-a-number. Negative
values are left out: `avg_degree` starts from `0.0` and only adds and
divides values converted from `size_t`, and neither the sum nor the
quotient of two values that are not negative is negative. -/
inductive double where
  | finite (m : Nat) (x : Nat)
  | inf
  | nan
  deriving DecidableEq, Repr

namespace double

/-- The exponent at which the fraction `p / q` is rounded: the least `x`,
searched upwards from the given `x` for at most `fuel` steps, at which the
integer part of `p / q * 2 ^ 1074 / 2 ^ x` is below `2 ^ 53`. -/
def exponent (p q : Nat) : Nat → Nat → Nat
  | 0, x => x
  | fuel + 1, x =>
    if (p <<< 1074) / (q <<< x) < 2 ^ 53 then x else exponent p q fuel (x + 1)

/-- The `double` nearest to the fraction `p / q`, ties to the even
significand (the default rounding of IEEE 754); a fraction that rounds
beyond the largest finite `double` gives `inf`. -/
def round (p q : Nat) : double :=
  if q = 0 then nan
  else
    let x := exponent p q 2046 0
    let m0 := (p <<< 1074) / (q <<< x)
    let r := (p <<< 1074) % (q <<< x)
    let m :=
      if 2 * r < q <<< x then m0
      else if q <<< x < 2 * r then m0 + 1
      else m0 + m0 % 2
    if 2045 < x then inf
    else if m < 2 ^ 53 then finite m x
    else if x = 2045 then inf
    else finite (2 ^ 52) (x + 1)

/-- The literal `0.0`. -/
def zero : double := finite 0 0

/-- The implicit conversion of a `size_t` to `double`. -/
def of_size_t (n : Nat) : double := round n 1

/-- The sum `a + b` of two `double` values. -/
def add : double → double → double
  | finite m1 x1, finite m2 x2 => round (m1 <<< x1 + m2 <<< x2) (1 <<< 1074)
  | nan, _ => nan
  | _, nan => nan
  | _, _ => inf

/-- The quotient `a / b` of two `double` values: `0.0 / 0.0` and
`inf / inf` are `nan`, any other division by `0.0` is `inf`. -/
def div : double → double → double
  | finite m1 x1, finite m2 x2 =>
    if m2 = 0 then (if m1 = 0 then nan else inf)
    else round (m1 <<< x1) (m2 <<< x2)
  | finite _ _, inf => finite 0 0
  | inf, finite _ _ => inf
  | inf, inf => nan
  | nan, _ => nan
  | _, nan => nan

/-- The test `std::isnan`. -/
def isNaN : double → Bool
  | nan => true
  | _ => false

/-- The comparison `a <= b` of two `double` values; it is false when one
of them is `nan`. -/
def le : double → double → Bool
  | finite m1 x1, finite m2 x2 => decide (m1 <<< x1 ≤ m2 <<< x2)
  | finite _ _, inf => true
  | inf, inf => true
  | _, _ => false

end double

namespace graph_base

/-- The accessor `get_num_vertices()`. -/
def get_num_vertices (g : graph_base) : Nat := g.nvertices

/-- The accessor `get_num_edges()`. -/
def get_num_edges (g : graph_base) : Nat := g.nedges

/-- The query `has_vertex(v)`. -/
def has_vertex (g : graph_base) (v : Nat) : Bool :=
  if v ≥ g.get_num_vertices then false else true

/-- The text thrown by the one-argument `validate_input`. -/
def what_v : String := "v >= G.num_Vertices()"

/-- The text of the first `throw` of the two-argument `validate_input`
(two adjacent string literals, concatenated by the compiler). -/
def what_v_and_w : String := "invalid argument :" ++ "v and w >= G.num_Vertices()"

/-- The text of the second `throw` of the two-argument `validate_input`. -/
def what_only_v : String := "invalid argument :" ++ "v >= num_sites"

/-- The text of the third `throw` of the two-argument `validate_input`. -/
def what_only_w : String := "invalid argument :" ++ "w >= num_sites"

/-- The one-argument `validate_input(v)`. -/
def validate_input (g : graph_base) (v : Nat) : Except exception Unit :=
  if v ≥ g.get_num_vertices then
    .error (exception.invalid_argument what_v)
  else
    .ok ()

/-- The two-argument `validate_input(v, w)`, with its three branches in
source order. -/
def validate_input2 (g : graph_base) (v w : Nat) : Except exception Unit :=
  if v ≥ g.get_num_vertices ∨ w ≥ g.get_num_vertices then
    .error (exception.invalid_argument what_v_and_w)
  else if v ≥ g.get_num_vertices then
    .error (exception.invalid_argument what_only_v)
  else if w ≥ g.get_num_vertices then
    .error (exception.invalid_argument what_only_w)
  else
    .ok ()

/-- The query `degree(v)`: validate, then ask the subclass hook. -/
def degree (g : graph_base) (get_num_adj : Nat → Nat) (v : Nat) :
    Except exception Nat :=
  match g.validate_input v with
  | .error e => .error e
  | .ok () => .ok (get_num_adj v)

/-- The loop `for (vertex_type i = 0; i < get_num_vertices(); i++) body`,
started in the state `(i, acc)` and run for at most `fuel` tests of its
condition. The counter is a `uint32_t`, so `i++` wraps modulo `2 ^ 32`; the
bound is a `size_t` and the comparison is done at 64 bits. The result is
`none` when the fuel ends before the condition fails. -/
def for_each_vertex {α : Type} (g : graph_base) (body : Nat → α → α) :
    Nat → Nat → α → Option α
  | 0, _, _ => none
  | fuel + 1, i, acc =>
    if i < g.get_num_vertices then
      for_each_vertex g body fuel ((i + 1) % vertex_type_size) (body i acc)
    else
      some acc

/-- The query `min_degree()`, run for at most `fuel` loop tests. -/
def min_degree (g : graph_base) (get_num_adj : Nat → Nat) (fuel : Nat) :
    Option Nat :=
  for_each_vertex g
    (fun i min =>
      let tmp := get_num_adj i
      if tmp < min then tmp else min)
    fuel 0 size_t_max

/-- The query `max_degree()`, run for at most `fuel` loop tests. -/
def max_degree (g : graph_base) (get_num_adj : Nat → Nat) (fuel : Nat) :
    Option Nat :=
  for_each_vertex g
    (fun i max =>
      let tmp := get_num_adj i
      if tmp > max then tmp else max)
    fuel 0 0

/-- The query `avg_degree()`, run for at most `fuel` loop tests. The
accumulator is a `double` that starts at `0.0`; `avg += get_num_adj(i)`
converts the `size_t` to `double` and adds, and the final division
converts the `size_t` vertex count to `double`. -/
def avg_degree (g : graph_base) (get_num_adj : Nat → Nat) (fuel : Nat) :
    Option double :=
  match for_each_vertex g
      (fun i (avg : double) => double.add avg (double.of_size_t (get_num_adj i)))
      fuel 0 double.zero with
  | none => none
  | some avg => some (double.div avg (double.of_size_t g.get_num_vertices))

end graph_base

/-! ## The stream reader and the constructors -/

namespace cstdin

/-- The failure of the stream reader on a header that is not well formed. -/
inductive malformed_input where
  | token_absent
  | token_non_numeric
  deriving DecidableEq, Repr

/-- The number written by a string of decimal digits. -/
def decimal_value (token : List Char) : Nat :=
  token.foldl (fun acc c => 10 * acc + (c.toNat - 48)) 0

/-- Modelled from the spec: `cstdin::read_uint64` is declared in `cstdin.h`,
which is not among the sources. The spec gives its contract:
`readUnsignedInteger(stream) -> u64` parses the next whitespace/newline
delimited token as an unsigned integer and fails if that token is absent or
non-numeric. Here the stream is the list of characters still unread; the
reader skips leading whitespace, takes the characters up to the next
whitespace as the token, and returns its value with the unread rest. A
token that is not a string of decimal digits, or whose value is not a
64-bit unsigned integer, is non-numeric. -/
def read_uint64 (is : List Char) : Except malformed_input (Nat × List Char) :=
  let s := is.dropWhile Char.isWhitespace
  let token := s.takeWhile (fun c => !c.isWhitespace)
  let rest := s.dropWhile (fun c => !c.isWhitespace)
  if token = [] then
    .error malformed_input.token_absent
  else if token.all Char.isDigit ∧ decimal_value token < 2 ^ 64 then
    .ok (decimal_value token, rest)
  else
    .error malformed_input.token_non_numeric

end cstdin

namespace graph_base

/-- The private `create_graph(is)`: two calls of the stream reader, the
first result stored in `nvertices`, the second in `nedges`; an exception of
the reader leaves the function at once. The reader is an argument: it maps
the stream to the value read and the stream after the read, or fails. The
result is the pair of the object and the stream after both reads. -/
def create_graph {σ ε : Type} (read_uint64 : σ → Except ε (Nat × σ)) (is : σ) :
    Except ε (graph_base × σ) :=
  match read_uint64 is with
  | .error e => .error e
  | .ok (nvertices, is1) =>
    match read_uint64 is1 with
    | .error e => .error e
    | .ok (nedges, is2) => .ok ({ nedges := nedges, nvertices := nvertices }, is2)

/-- The text that `ss << x` appends for an unsigned integer `x`: its
decimal digits. -/
def put_uint (x : Nat) : List Char := Nat.toDigits 10 x

/-- The constructor `graph_base(istream& is)`, reading with
`cstdin::read_uint64`. -/
def from_stream (is : List Char) : Except cstdin.malformed_input (graph_base × List Char) :=
  create_graph cstdin.read_uint64 is

/-- The public constructor `graph_base(const size_t& num_vertices)`: it
prints `num_vertices << " " << 0 << endl` to a string stream and builds
the graph from that stream, which is then dropped. -/
def from_num_vertices (num_vertices : Nat) : Except cstdin.malformed_input graph_base :=
  match create_graph cstdin.read_uint64
      (put_uint num_vertices ++ [' '] ++ put_uint 0 ++ ['\n']) with
  | .error e => .error e
  | .ok (g, _) => .ok g

/-- The protected constructor
`graph_base(const size_t& num_vertices, const size_t& num_edges)`: it
prints `num_vertices << " " << num_edges << endl` to a string stream and
builds the graph from that stream, which is then dropped. -/
def from_num_vertices_edges (num_vertices num_edges : Nat) :
    Except cstdin.malformed_input graph_base :=
  match create_graph cstdin.read_uint64
      (put_uint num_vertices ++ [' '] ++ put_uint num_edges ++ ['\n']) with
  | .error e => .error e
  | .ok (g, _) => .ok g

end graph_base

/-! ## Vertex normalisation -/

/-- Modelled from the spec: the class `edge_base` is declared in `edge.h`,
which is not among the sources. The spec describes it as an edge value
exposing two endpoints, with the capability to yield, given one known
endpoint, the opposite endpoint. -/
structure edge_base where
  first : Nat
  second : Nat
  deriving DecidableEq, Repr

namespace edge_base

/-- The edge connects `v` and `u`: they are its two endpoints, in either
order. -/
def connects (e : edge_base) (v u : Nat) : Prop :=
  (e.first = v ∧ e.second = u) ∨ (e.first = u ∧ e.second = v)

instance (e : edge_base) (v u : Nat) : Decidable (e.connects v u) := by
  unfold connects
  exact inferInstance

/-- Modelled from the spec: the endpoint of the edge other than `known`.
The spec names a result only when `known` is an endpoint; for any other
vertex there is none. -/
def get_other (e : edge_base) (known : Nat) : Option Nat :=
  if known = e.first then some e.second
  else if known = e.second then some e.first
  else none

end edge_base

namespace graph_base

/-- Modelled from the spec: the specialisation
`graph_base::get_vertex<edge_base>(v, e)` is only declared in
`graph_base.h`; its body is not among the sources. The spec: for an edge
value exposing two endpoints, resolve by asking the edge for its endpoint
other than the known one. -/
def get_vertex_edge_base (v : Nat) (e : edge_base) : Option Nat :=
  e.get_other v

end graph_base

/-- A `std::shared_ptr<E>`: null, or a shared-ownership reference to a
value of type `E`. -/
structure shared_ptr (E : Type) where
  get : Option E

/-- A `std::unique_ptr<E>`: null, or an exclusive-ownership reference to a
value of type `E`. -/
structure unique_ptr (E : Type) where
  get : Option E

namespace graph_base

/-- The primary template `get_vertex<E>(v, e)`. Its `static_assert` admits
only `E = vertex_type`, and its body is `return e;`. -/
def get_vertex (_v : Nat) (e : Nat) : Nat := e

/-- The overload `get_vertex(v, const shared_ptr<E>& e)`, whose body is
`return get_vertex(v, edge_base(*e));`. The conversion `edge_base(...)` of
the pointee is the argument `to_edge_base` (the copy constructor when `E`
is `edge_base`); dereferencing a null pointer has no result. -/
def get_vertex_shared_ptr {E : Type} (to_edge_base : E → edge_base) (v : Nat)
    (e : shared_ptr E) : Option Nat :=
  match e.get with
  | none => none
  | some pointee => get_vertex_edge_base v (to_edge_base pointee)

/-- The overload `get_vertex(v, const unique_ptr<E>& e)`, whose body is
`return get_vertex(v, edge_base(*e));`. The conversion `edge_base(...)` of
the pointee is the argument `to_edge_base` (the copy constructor when `E`
is `edge_base`); dereferencing a null pointer has no result. -/
def get_vertex_unique_ptr {E : Type} (to_edge_base : E → edge_base) (v : Nat)
    (e : unique_ptr E) : Option Nat :=
  match e.get with
  | none => none
  | some pointee => get_vertex_edge_base v (to_edge_base pointee)

/-- The protected `set_num_edges(num)`: the assignment `nedges = num`. -/
def set_num_edges (g : graph_base) (num : Nat) : graph_base :=
  { g with nedges := num }

end graph_base

/-! ## Member calls as state transitions -/

/-- The member functions of `graph_base` that can be called on a
constructed object, with their arguments. -/
inductive method where
  | get_num_vertices
  | get_num_edges
  | degree (v : Nat)
  | has_vertex (v : Nat)
  | min_degree
  | max_degree
  | avg_degree
  | set_num_edges (num : Nat)
  | validate_input (v : Nat)
  | validate_input2 (v w : Nat)

namespace method

/-- The member functions declared `const`: all but `set_num_edges`. -/
def is_const : method → Bool
  | set_num_edges _ => false
  | _ => true

end method

/-- What a member call hands back: nothing, a `size_t`, a `bool`, a
`double`, or a thrown exception. -/
inductive outcome where
  | void
  | size (n : Nat)
  | bool (b : Bool)
  | double (x : double)
  | thrown (e : exception)

namespace outcome

/-- The outcome of a call that returns a `size_t` or throws. -/
def of_size : Except exception Nat → outcome
  | .ok n => size n
  | .error e => thrown e

/-- The outcome of a `void` call that may throw. -/
def of_void : Except exception Unit → outcome
  | .ok () => void
  | .error e => thrown e

end outcome

namespace graph_base

/-- One member call on the object `g`: the object after the call and the
outcome, or `none` when a loop does not exit within `fuel` tests. A `const`
member function cannot assign to the data members, so the object after it
is `g`; `set_num_edges` is the only member function that is not `const`. -/
def call (get_num_adj : Nat → Nat) (fuel : Nat) (g : graph_base) :
    method → Option (graph_base × outcome)
  | .get_num_vertices => some (g, outcome.size g.get_num_vertices)
  | .get_num_edges => some (g, outcome.size g.get_num_edges)
  | .degree v => some (g, outcome.of_size (g.degree get_num_adj v))
  | .has_vertex v => some (g, outcome.bool (g.has_vertex v))
  | .min_degree =>
    match g.min_degree get_num_adj fuel with
    | none => none
    | some r => some (g, outcome.size r)
  | .max_degree =>
    match g.max_degree get_num_adj fuel with
    | none => none
    | some r => some (g, outcome.size r)
  | .avg_degree =>
    match g.avg_degree get_num_adj fuel with
    | none => none
    | some r => some (g, outcome.double r)
  | .set_num_edges num => some (g.set_num_edges num, outcome.void)
  | .validate_input v => some (g, outcome.of_void (g.validate_input v))
  | .validate_input2 v w => some (g, outcome.of_void (g.validate_input2 v w))

/-- A sequence of member calls on the object `g`, each call made on the
object the previous one left; the result is the object after the last
call, or `none` when one of the calls does not return. -/
def run (get_num_adj : Nat → Nat) (fuel : Nat) : graph_base → List method → Option graph_base
  | g, [] => some g
  | g, m :: ms =>
    match g.call get_num_adj fuel m with
    | none => none
    | some (g1, _) => run get_num_adj fuel g1 ms

end graph_base

/-! ## Theorems -/

open graph_base

/-- Helper: `has_vertex` as a proposition. -/
theorem has_vertex_true_iff (g : graph_base) (v : Nat) :
    g.has_vertex v = true ↔ v < g.get_num_vertices := by
  unfold has_vertex
  by_cases h : v ≥ g.get_num_vertices
  · simp [h]
  · simp [h]
    omega

/-- Helper: when the vertex count fits the 32-bit counter, the loop started
at `i ≤ vertexCount` exits once it has enough fuel, having applied the
body to `i, i + 1, ..., vertexCount - 1` in this order. -/
theorem for_each_vertex_exit {α : Type} (g : graph_base) (body : Nat → α → α)
    (hlt : g.get_num_vertices < vertex_type_size) :
    ∀ (fuel i : Nat) (acc : α), i ≤ g.get_num_vertices →
      g.get_num_vertices - i < fuel →
      for_each_vertex g body fuel i acc =
        some ((List.range' i (g.get_num_vertices - i)).foldl (fun a j => body j a) acc) := by
  intro fuel
  induction fuel with
  | zero =>
    intro i acc _ hf
    omega
  | succ fuel ih =>
    intro i acc hi hf
    by_cases hc : i < g.get_num_vertices
    · have hwrap : (i + 1) % vertex_type_size = i + 1 :=
        Nat.mod_eq_of_lt (by omega)
      have hlen : g.get_num_vertices - i = (g.get_num_vertices - (i + 1)) + 1 := by omega
      rw [for_each_vertex, if_pos hc, hwrap, ih (i + 1) (body i acc) (by omega) (by omega),
        hlen, List.range'_succ, List.foldl_cons]
    · have hlen : g.get_num_vertices - i = 0 := by omega
      rw [for_each_vertex, if_neg hc, hlen]
      rfl

/-- Helper: when the vertex count does not fit the 32-bit counter, the
loop condition holds in every state the loop reaches, so no amount of fuel
makes the loop exit. -/
theorem for_each_vertex_none {α : Type} (g : graph_base) (body : Nat → α → α)
    (hge : vertex_type_size ≤ g.get_num_vertices) :
    ∀ (fuel i : Nat) (acc : α), i < vertex_type_size →
      for_each_vertex g body fuel i acc = none := by
  intro fuel
  induction fuel with
  | zero =>
    intro i acc _
    rfl
  | succ fuel ih =>
    intro i acc hi
    have hc : i < g.get_num_vertices := by omega
    rw [for_each_vertex, if_pos hc]
    exact ih _ _ (Nat.mod_lt _ (by decide))

/-- Helper: the running minimum is below its start value and below every
neighbour count it has seen. -/
theorem foldl_min_le (get_num_adj : Nat → Nat) :
    ∀ (l : List Nat) (acc : Nat),
      l.foldl (fun a j => if get_num_adj j < a then get_num_adj j else a) acc ≤ acc ∧
      ∀ j ∈ l,
        l.foldl (fun a j => if get_num_adj j < a then get_num_adj j else a) acc
          ≤ get_num_adj j := by
  intro l
  induction l with
  | nil =>
    intro acc
    simp
  | cons x xs ih =>
    intro acc
    rw [List.foldl_cons]
    obtain ⟨h1, h2⟩ := ih (if get_num_adj x < acc then get_num_adj x else acc)
    have hstep : (if get_num_adj x < acc then get_num_adj x else acc) ≤ acc ∧
        (if get_num_adj x < acc then get_num_adj x else acc) ≤ get_num_adj x := by
      split <;> omega
    refine ⟨le_trans h1 hstep.1, ?_⟩
    intro j hj
    rcases List.mem_cons.mp hj with rfl | hj
    · exact le_trans h1 hstep.2
    · exact h2 j hj

/-- Helper: the running maximum is above its start value and above every
neighbour count it has seen. -/
theorem le_foldl_max (get_num_adj : Nat → Nat) :
    ∀ (l : List Nat) (acc : Nat),
      acc ≤ l.foldl (fun a j => if get_num_adj j > a then get_num_adj j else a) acc ∧
      ∀ j ∈ l,
        get_num_adj j
          ≤ l.foldl (fun a j => if get_num_adj j > a then get_num_adj j else a) acc := by
  intro l
  induction l with
  | nil =>
    intro acc
    simp
  | cons x xs ih =>
    intro acc
    rw [List.foldl_cons]
    obtain ⟨h1, h2⟩ := ih (if get_num_adj x > acc then get_num_adj x else acc)
    have hstep : acc ≤ (if get_num_adj x > acc then get_num_adj x else acc) ∧
        get_num_adj x ≤ (if get_num_adj x > acc then get_num_adj x else acc) := by
      split <;> omega
    refine ⟨le_trans hstep.1 h1, ?_⟩
    intro j hj
    rcases List.mem_cons.mp hj with rfl | hj
    · exact le_trans hstep.2 h1
    · exact h2 j hj

/-- Helper: a lower bound of every term bounds the sum from below. -/
theorem mul_length_le_sum (f : Nat → Nat) (m : Nat) :
    ∀ l : List Nat, (∀ j ∈ l, m ≤ f j) → m * l.length ≤ (l.map f).sum := by
  intro l
  induction l with
  | nil => intro _; simp
  | cons x xs ih =>
    intro h
    have hx := h x (List.mem_cons_self x xs)
    have hxs := ih (fun j hj => h j (List.mem_cons_of_mem x hj))
    simp only [List.length_cons, List.map_cons, List.sum_cons, Nat.mul_succ]
    omega

/-- Helper: an upper bound of every term bounds the sum from above. -/
theorem sum_le_mul_length (f : Nat → Nat) (m : Nat) :
    ∀ l : List Nat, (∀ j ∈ l, f j ≤ m) → (l.map f).sum ≤ m * l.length := by
  intro l
  induction l with
  | nil => intro _; simp
  | cons x xs ih =>
    intro h
    have hx := h x (List.mem_cons_self x xs)
    have hxs := ih (fun j hj => h j (List.mem_cons_of_mem x hj))
    simp only [List.length_cons, List.map_cons, List.sum_cons, Nat.mul_succ]
    omega

/-- Helper: with enough fuel and a vertex count below `2 ^ 32`,
`min_degree` returns the running minimum over `0, ..., vertexCount - 1`. -/
theorem min_degree_eq (g : graph_base) (get_num_adj : Nat → Nat) (fuel : Nat)
    (hlt : g.get_num_vertices < vertex_type_size) (hfuel : g.get_num_vertices < fuel) :
    g.min_degree get_num_adj fuel =
      some ((List.range g.get_num_vertices).foldl
        (fun a j => if get_num_adj j < a then get_num_adj j else a) size_t_max) := by
  unfold min_degree
  rw [for_each_vertex_exit g _ hlt fuel 0 size_t_max (Nat.zero_le _) (by omega),
    Nat.sub_zero, List.range_eq_range']

/-- Helper: with enough fuel and a vertex count below `2 ^ 32`,
`max_degree` returns the running maximum over `0, ..., vertexCount - 1`. -/
theorem max_degree_eq (g : graph_base) (get_num_adj : Nat → Nat) (fuel : Nat)
    (hlt : g.get_num_vertices < vertex_type_size) (hfuel : g.get_num_vertices < fuel) :
    g.max_degree get_num_adj fuel =
      some ((List.range g.get_num_vertices).foldl
        (fun a j => if get_num_adj j > a then get_num_adj j else a) 0) := by
  unfold max_degree
  rw [for_each_vertex_exit g _ hlt fuel 0 0 (Nat.zero_le _) (by omega),
    Nat.sub_zero, List.range_eq_range']

/-- Helper: a decimal digit is not whitespace. -/
theorem isDigit_not_isWhitespace (c : Char) (h : c.isDigit = true) :
    c.isWhitespace = false := by
  by_contra hw
  simp only [Bool.not_eq_false] at hw
  simp only [Char.isWhitespace, Bool.or_eq_true, decide_eq_true_eq] at hw
  rcases hw with ((rfl | rfl) | rfl) | rfl <;> revert h <;> decide

/-- Helper: the character printed for a digit below ten is a decimal digit
and has that digit as its value. -/
theorem digitChar_isDigit (k : Nat) (hk : k < 10) :
    (Nat.digitChar k).isDigit = true ∧ (Nat.digitChar k).toNat - 48 = k := by
  interval_cases k <;> exact ⟨rfl, rfl⟩

/-- Helper: `dropWhile` skips a whole block of characters that satisfy the
test. -/
theorem dropWhile_append_of_all (p : Char → Bool) :
    ∀ (ws l : List Char), (∀ c ∈ ws, p c = true) →
      (ws ++ l).dropWhile p = l.dropWhile p := by
  intro ws
  induction ws with
  | nil => intro l _; rfl
  | cons x xs ih =>
    intro l h
    rw [List.cons_append, List.dropWhile_cons_of_pos (h x (List.mem_cons_self x xs))]
    exact ih l (fun c hc => h c (List.mem_cons_of_mem x hc))

/-- Helper: `takeWhile` takes a whole block of characters that satisfy the
test. -/
theorem takeWhile_append_of_all (p : Char → Bool) :
    ∀ (t l : List Char), (∀ c ∈ t, p c = true) →
      (t ++ l).takeWhile p = t ++ l.takeWhile p := by
  intro t
  induction t with
  | nil => intro l _; rfl
  | cons x xs ih =>
    intro l h
    rw [List.cons_append, List.takeWhile_cons_of_pos (h x (List.mem_cons_self x xs)),
      ih l (fun c hc => h c (List.mem_cons_of_mem x hc)), List.cons_append]

/-- Helper: `takeWhile` and `dropWhile` stop at once at a first character
that fails the test. -/
theorem takeWhile_dropWhile_of_head (p : Char → Bool) (l : List Char)
    (h : ∀ c, l.head? = some c → p c = false) :
    l.takeWhile p = [] ∧ l.dropWhile p = l := by
  cases l with
  | nil => exact ⟨rfl, rfl⟩
  | cons x xs =>
    have hx : ¬ p x = true := by
      rw [h x rfl]
      exact Bool.false_ne_true
    exact ⟨List.takeWhile_cons_of_neg hx, List.dropWhile_cons_of_neg hx⟩

/-- Helper: the reader on a stream that starts with whitespace `ws`, then
a token `t` of decimal digits whose value fits 64 bits, then `rest`, which
is empty or starts with whitespace: it returns the value of `t` and leaves
exactly `rest` unread. -/
theorem read_uint64_token (ws t rest : List Char)
    (hws : ∀ c ∈ ws, c.isWhitespace = true)
    (ht : ∀ c ∈ t, c.isDigit = true) (hne : t ≠ [])
    (hval : cstdin.decimal_value t < 2 ^ 64)
    (hrest : ∀ c, rest.head? = some c → c.isWhitespace = true) :
    cstdin.read_uint64 (ws ++ t ++ rest) = .ok (cstdin.decimal_value t, rest) := by
  have htns : ∀ c ∈ t, (fun c : Char => !c.isWhitespace) c = true := by
    intro c hc
    simp [isDigit_not_isWhitespace c (ht c hc)]
  have hhead : ∀ c, (t ++ rest).head? = some c → c.isWhitespace = false := by
    intro c hc
    cases t with
    | nil => exact absurd rfl hne
    | cons x xs =>
      simp only [List.cons_append, List.head?_cons, Option.some.injEq] at hc
      subst hc
      exact isDigit_not_isWhitespace x (ht x (List.mem_cons_self x xs))
  have hrest2 : ∀ c, rest.head? = some c → (fun c : Char => !c.isWhitespace) c = false := by
    intro c hc
    simp [hrest c hc]
  have hs : (ws ++ t ++ rest).dropWhile Char.isWhitespace = t ++ rest := by
    rw [List.append_assoc, dropWhile_append_of_all _ ws (t ++ rest) hws]
    exact (takeWhile_dropWhile_of_head _ (t ++ rest) hhead).2
  have htok : (t ++ rest).takeWhile (fun c : Char => !c.isWhitespace) = t := by
    rw [takeWhile_append_of_all _ t rest htns,
      (takeWhile_dropWhile_of_head _ rest hrest2).1, List.append_nil]
  have hrst : (t ++ rest).dropWhile (fun c : Char => !c.isWhitespace) = rest := by
    rw [dropWhile_append_of_all _ t rest htns]
    exact (takeWhile_dropWhile_of_head _ rest hrest2).2
  have hall : t.all Char.isDigit = true := List.all_eq_true.mpr ht
  simp only [cstdin.read_uint64, hs, htok, hrst, if_neg hne, hall, hval, and_self, if_true]

/-- Helper: reading the digits printed for `n` in front of `ds` yields `n`
followed by the reading of `ds`. -/
theorem foldl_toDigitsCore :
    ∀ (fuel n : Nat) (ds : List Char), n < fuel →
      (Nat.toDigitsCore 10 fuel n ds).foldl (fun acc c => 10 * acc + (c.toNat - 48)) 0 =
        ds.foldl (fun acc c => 10 * acc + (c.toNat - 48)) n := by
  intro fuel
  induction fuel with
  | zero => intro n ds h; omega
  | succ fuel ih =>
    intro n ds h
    have hd := (digitChar_isDigit (n % 10) (Nat.mod_lt n (by decide))).2
    simp only [Nat.toDigitsCore]
    split
    · rename_i h0
      rw [List.foldl_cons, hd]
      congr 1
      omega
    · rename_i h0
      rw [ih (n / 10) _ (by omega), List.foldl_cons, hd]
      congr 1
      omega

/-- Helper: every character printed for a number is a decimal digit. -/
theorem toDigitsCore_isDigit :
    ∀ (fuel n : Nat) (ds : List Char), (∀ c ∈ ds, c.isDigit = true) →
      ∀ c ∈ Nat.toDigitsCore 10 fuel n ds, c.isDigit = true := by
  intro fuel
  induction fuel with
  | zero => intro n ds h; exact h
  | succ fuel ih =>
    intro n ds h
    have hd := (digitChar_isDigit (n % 10) (Nat.mod_lt n (by decide))).1
    have hds : ∀ c ∈ Nat.digitChar (n % 10) :: ds, c.isDigit = true := by
      intro c hc
      rcases List.mem_cons.mp hc with rfl | hc
      · exact hd
      · exact h c hc
    simp only [Nat.toDigitsCore]
    split
    · exact hds
    · exact ih _ _ hds

/-- Helper: printing in front of a non-empty text gives a non-empty text. -/
theorem toDigitsCore_ne_nil :
    ∀ (fuel n : Nat) (ds : List Char), ds ≠ [] → Nat.toDigitsCore 10 fuel n ds ≠ [] := by
  intro fuel
  induction fuel with
  | zero => intro n ds h; exact h
  | succ fuel ih =>
    intro n ds _
    simp only [Nat.toDigitsCore]
    split
    · exact List.cons_ne_nil _ _
    · exact ih _ _ (List.cons_ne_nil _ _)

/-- Helper: the printed text of `x` is a non-empty string of decimal
digits whose value is `x`. -/
theorem put_uint_spec (x : Nat) :
    (∀ c ∈ put_uint x, c.isDigit = true) ∧ put_uint x ≠ [] ∧
      cstdin.decimal_value (put_uint x) = x := by
  refine ⟨?_, ?_, ?_⟩
  · exact toDigitsCore_isDigit (x + 1) x [] (fun c hc => absurd hc (List.not_mem_nil c))
  · unfold put_uint Nat.toDigits
    simp only [Nat.toDigitsCore]
    split
    · exact List.cons_ne_nil _ _
    · exact toDigitsCore_ne_nil _ _ _ (List.cons_ne_nil _ _)
  · unfold cstdin.decimal_value put_uint Nat.toDigits
    rw [foldl_toDigitsCore (x + 1) x [] (Nat.lt_succ_self x)]
    rfl

/-- Helper: `create_graph` with the stream reader on a header of two
tokens of decimal digits. -/
theorem create_graph_two_tokens (ws1 t1 ws2 t2 rest : List Char)
    (hws1 : ∀ c ∈ ws1, c.isWhitespace = true)
    (ht1 : ∀ c ∈ t1, c.isDigit = true) (hne1 : t1 ≠ [])
    (hval1 : cstdin.decimal_value t1 < 2 ^ 64)
    (hws2 : ∀ c ∈ ws2, c.isWhitespace = true) (hsep : ws2 ≠ [])
    (ht2 : ∀ c ∈ t2, c.isDigit = true) (hne2 : t2 ≠ [])
    (hval2 : cstdin.decimal_value t2 < 2 ^ 64)
    (hrest : ∀ c, rest.head? = some c → c.isWhitespace = true) :
    create_graph cstdin.read_uint64 (ws1 ++ t1 ++ (ws2 ++ t2 ++ rest)) =
      .ok ({ nedges := cstdin.decimal_value t2, nvertices := cstdin.decimal_value t1 },
        rest) := by
  have hmid : ∀ c, (ws2 ++ t2 ++ rest).head? = some c → c.isWhitespace = true := by
    intro c hc
    cases ws2 with
    | nil => exact absurd rfl hsep
    | cons x xs =>
      simp only [List.cons_append, List.head?_cons, Option.some.injEq] at hc
      subst hc
      exact hws2 x (List.mem_cons_self x xs)
  simp only [create_graph,
    read_uint64_token ws1 t1 (ws2 ++ t2 ++ rest) hws1 ht1 hne1 hval1 hmid,
    read_uint64_token ws2 t2 rest hws2 ht2 hne2 hval2 hrest]

/-- Helper: `create_graph` when the first read fails. -/
theorem create_graph_first_error {σ ε : Type} (read_uint64 : σ → Except ε (Nat × σ))
    (is : σ) (e : ε) (h1 : read_uint64 is = .error e) :
    create_graph read_uint64 is = .error e := by
  simp only [create_graph, h1]

/-- Helper: `create_graph` when the second read fails. -/
theorem create_graph_second_error {σ ε : Type} (read_uint64 : σ → Except ε (Nat × σ))
    (is is1 : σ) (a : Nat) (e : ε) (h1 : read_uint64 is = .ok (a, is1))
    (h2 : read_uint64 is1 = .error e) :
    create_graph read_uint64 is = .error e := by
  simp only [create_graph, h1, h2]

/-- Helper: `create_graph` when both reads succeed. -/
theorem create_graph_both_ok {σ ε : Type} (read_uint64 : σ → Except ε (Nat × σ))
    (is is1 is2 : σ) (a b : Nat) (h1 : read_uint64 is = .ok (a, is1))
    (h2 : read_uint64 is1 = .ok (b, is2)) :
    create_graph read_uint64 is = .ok ({ nedges := b, nvertices := a }, is2) := by
  simp only [create_graph, h1, h2]

/-- Helper: a member call that returns leaves `nvertices` as it was, and
leaves the whole object as it was when the member function is `const`. -/
theorem call_frame (get_num_adj : Nat → Nat) (fuel : Nat) (g g1 : graph_base)
    (m : method) (r : outcome) (h : g.call get_num_adj fuel m = some (g1, r)) :
    g1.nvertices = g.nvertices ∧ (m.is_const = true → g1 = g) := by
  cases m with
  | set_num_edges num =>
    simp only [call, Option.some.injEq, Prod.mk.injEq] at h
    obtain ⟨h1, _⟩ := h
    subst h1
    exact ⟨rfl, fun hc => by cases hc⟩
  | min_degree =>
    simp only [call] at h
    cases hr : g.min_degree get_num_adj fuel with
    | none => rw [hr] at h; cases h
    | some x =>
      rw [hr] at h
      simp only [Option.some.injEq, Prod.mk.injEq] at h
      exact ⟨by rw [h.1], fun _ => h.1.symm⟩
  | max_degree =>
    simp only [call] at h
    cases hr : g.max_degree get_num_adj fuel with
    | none => rw [hr] at h; cases h
    | some x =>
      rw [hr] at h
      simp only [Option.some.injEq, Prod.mk.injEq] at h
      exact ⟨by rw [h.1], fun _ => h.1.symm⟩
  | avg_degree =>
    simp only [call] at h
    cases hr : g.avg_degree get_num_adj fuel with
    | none => rw [hr] at h; cases h
    | some x =>
      rw [hr] at h
      simp only [Option.some.injEq, Prod.mk.injEq] at h
      exact ⟨by rw [h.1], fun _ => h.1.symm⟩
  | get_num_vertices =>
    simp only [call, Option.some.injEq, Prod.mk.injEq] at h
    exact ⟨by rw [h.1], fun _ => h.1.symm⟩
  | get_num_edges =>
    simp only [call, Option.some.injEq, Prod.mk.injEq] at h
    exact ⟨by rw [h.1], fun _ => h.1.symm⟩
  | degree v =>
    simp only [call, Option.some.injEq, Prod.mk.injEq] at h
    exact ⟨by rw [h.1], fun _ => h.1.symm⟩
  | has_vertex v =>
    simp only [call, Option.some.injEq, Prod.mk.injEq] at h
    exact ⟨by rw [h.1], fun _ => h.1.symm⟩
  | validate_input v =>
    simp only [call, Option.some.injEq, Prod.mk.injEq] at h
    exact ⟨by rw [h.1], fun _ => h.1.symm⟩
  | validate_input2 v w =>
    simp only [call, Option.some.injEq, Prod.mk.injEq] at h
    exact ⟨by rw [h.1], fun _ => h.1.symm⟩

/-- Helper: a sequence of member calls that returns leaves `nvertices` as
it was. -/
theorem run_nvertices (get_num_adj : Nat → Nat) (fuel : Nat) :
    ∀ (ms : List method) (g g1 : graph_base),
      run get_num_adj fuel g ms = some g1 → g1.nvertices = g.nvertices := by
  intro ms
  induction ms with
  | nil =>
    intro g g1 h
    simp only [run, Option.some.injEq] at h
    rw [h]
  | cons m ms ih =>
    intro g g1 h
    simp only [run] at h
    cases hc : g.call get_num_adj fuel m with
    | none => rw [hc] at h; cases h
    | some p =>
      obtain ⟨g2, r⟩ := p
      rw [hc] at h
      rw [ih g2 g1 h, (call_frame get_num_adj fuel g g2 m r hc).1]

/-- Helper: with a vertex count below `2 ^ 32` and enough fuel, `avg_degree`
returns the left-to-right `double` sum of the neighbour counts divided by
the vertex count. -/
theorem avg_degree_eq (g : graph_base) (get_num_adj : Nat → Nat) (fuel : Nat)
    (hlt : g.get_num_vertices < vertex_type_size) (hfuel : g.get_num_vertices < fuel) :
    g.avg_degree get_num_adj fuel =
      some (double.div
        ((List.range g.get_num_vertices).foldl
          (fun a j => double.add a (double.of_size_t (get_num_adj j))) double.zero)
        (double.of_size_t g.get_num_vertices)) := by
  unfold avg_degree
  rw [for_each_vertex_exit g _ hlt fuel 0 _ (Nat.zero_le _) (by omega),
    Nat.sub_zero, List.range_eq_range']

/-- Helper: when the vertex count fits the 32-bit counter, the loop started
at `i ≤ vertexCount` has not exited after `vertexCount - i` tests or
fewer. -/
theorem for_each_vertex_short {α : Type} (g : graph_base) (body : Nat → α → α)
    (hlt : g.get_num_vertices < vertex_type_size) :
    ∀ (fuel i : Nat) (acc : α), i ≤ g.get_num_vertices →
      fuel ≤ g.get_num_vertices - i →
      for_each_vertex g body fuel i acc = none := by
  intro fuel
  induction fuel with
  | zero =>
    intro i acc _ _
    rfl
  | succ fuel ih =>
    intro i acc hi hf
    have hc : i < g.get_num_vertices := by omega
    have hwrap : (i + 1) % vertex_type_size = i + 1 :=
      Nat.mod_eq_of_lt (by omega)
    rw [for_each_vertex, if_pos hc, hwrap]
    exact ih (i + 1) (body i acc) (by omega) (by omega)

/-- Helper: a loop that exits has a vertex count below `2 ^ 32` and was
given more fuel than the vertex count. -/
theorem for_each_vertex_some_bounds {α : Type} (g : graph_base) (body : Nat → α → α)
    (fuel : Nat) (acc r : α) (h : for_each_vertex g body fuel 0 acc = some r) :
    g.get_num_vertices < vertex_type_size ∧ g.get_num_vertices < fuel := by
  have hlt : g.get_num_vertices < vertex_type_size := by
    by_contra hc
    rw [for_each_vertex_none g body (Nat.le_of_not_lt hc) fuel 0 acc (by decide)] at h
    cases h
  refine ⟨hlt, ?_⟩
  by_contra hc
  rw [for_each_vertex_short g body hlt fuel 0 acc (Nat.zero_le _) (by omega)] at h
  cases h

/-- Helper: the running minimum is its start value or one of the
neighbour counts it has seen. -/
theorem foldl_min_attained (get_num_adj : Nat → Nat) :
    ∀ (l : List Nat) (acc : Nat),
      l.foldl (fun a j => if get_num_adj j < a then get_num_adj j else a) acc = acc ∨
      ∃ j ∈ l,
        l.foldl (fun a j => if get_num_adj j < a then get_num_adj j else a) acc
          = get_num_adj j := by
  intro l
  induction l with
  | nil =>
    intro acc
    exact Or.inl rfl
  | cons x xs ih =>
    intro acc
    rw [List.foldl_cons]
    rcases ih (if get_num_adj x < acc then get_num_adj x else acc) with h | ⟨j, hj, h⟩
    · by_cases hx : get_num_adj x < acc
      · rw [if_pos hx] at h ⊢
        exact Or.inr ⟨x, List.mem_cons_self x xs, h⟩
      · rw [if_neg hx] at h ⊢
        exact Or.inl h
    · exact Or.inr ⟨j, List.mem_cons_of_mem x hj, h⟩

/-- Helper: the running maximum is its start value or one of the
neighbour counts it has seen. -/
theorem foldl_max_attained (get_num_adj : Nat → Nat) :
    ∀ (l : List Nat) (acc : Nat),
      l.foldl (fun a j => if get_num_adj j > a then get_num_adj j else a) acc = acc ∨
      ∃ j ∈ l,
        l.foldl (fun a j => if get_num_adj j > a then get_num_adj j else a) acc
          = get_num_adj j := by
  intro l
  induction l with
  | nil =>
    intro acc
    exact Or.inl rfl
  | cons x xs ih =>
    intro acc
    rw [List.foldl_cons]
    rcases ih (if get_num_adj x > acc then get_num_adj x else acc) with h | ⟨j, hj, h⟩
    · by_cases hx : get_num_adj x > acc
      · rw [if_pos hx] at h ⊢
        exact Or.inr ⟨x, List.mem_cons_self x xs, h⟩
      · rw [if_neg hx] at h ⊢
        exact Or.inl h
    · exact Or.inr ⟨j, List.mem_cons_of_mem x hj, h⟩

/-- Helper: on a graph without vertices the loop of `avg_degree` exits at
its first test with the sum `0.0`, and the call returns the `double`
quotient of `0.0` by the vertex count converted to `double`. -/
theorem avg_degree_no_vertices (g : graph_base) (get_num_adj : Nat → Nat) (fuel : Nat)
    (h0 : g.get_num_vertices = 0) (hfuel : 0 < fuel) :
    g.avg_degree get_num_adj fuel
      = some (double.div double.zero (double.of_size_t 0)) := by
  have hlt : g.get_num_vertices < vertex_type_size := by
    rw [h0]
    decide
  rw [avg_degree_eq g get_num_adj fuel hlt (by omega), h0]
  rfl

/-- C1: `has_vertex(v)` is a total Boolean function (it has no error
result) and it is true exactly when `v < get_num_vertices()`. -/
theorem has_vertex_iff (g : graph_base) (v : Nat) :
    (g.has_vertex v = true ↔ v < g.get_num_vertices) ∧
    (g.has_vertex v = false ↔ g.get_num_vertices ≤ v) := by
  unfold has_vertex
  by_cases h : v ≥ g.get_num_vertices
  · simp [h]
  · simp [h]
    omega

/-- C2: `degree(v)` throws `invalid_argument` exactly when
`v >= get_num_vertices()`, in particular at `v = get_num_vertices()`, and
returns exactly `get_num_adj(v)` in every other case. -/
theorem degree_spec (g : graph_base) (get_num_adj : Nat → Nat) (v : Nat) :
    ((∃ what, g.degree get_num_adj v = .error (exception.invalid_argument what))
        ↔ v ≥ g.get_num_vertices) ∧
    (g.degree get_num_adj v = .ok (get_num_adj v) ↔ v < g.get_num_vertices) ∧
    (∃ what, g.degree get_num_adj g.get_num_vertices
        = .error (exception.invalid_argument what)) := by
  refine ⟨?_, ?_, ?_⟩
  · by_cases h : v ≥ g.get_num_vertices
    · simp [degree, validate_input, h]
    · simp [degree, validate_input, h]
  · by_cases h : v ≥ g.get_num_vertices
    · simp [degree, validate_input, h]
    · simp [degree, validate_input, h]
      omega
  · simp [degree, validate_input]

/-- C3: the two-argument `validate_input(v, w)` throws `invalid_argument`
exactly when `v` or `w` is `>= get_num_vertices()`, and returns normally
exactly when `has_vertex(v)` and `has_vertex(w)` are both true. -/
theorem validate_input2_spec (g : graph_base) (v w : Nat) :
    ((∃ what, g.validate_input2 v w = .error (exception.invalid_argument what))
        ↔ (v ≥ g.get_num_vertices ∨ w ≥ g.get_num_vertices)) ∧
    (g.validate_input2 v w = .ok ()
        ↔ (g.has_vertex v = true ∧ g.has_vertex w = true)) := by
  have hv := (has_vertex_true_iff g v)
  have hw := (has_vertex_true_iff g w)
  by_cases h : v ≥ g.get_num_vertices ∨ w ≥ g.get_num_vertices
  · have hn : ¬ (v < g.get_num_vertices ∧ w < g.get_num_vertices) := by omega
    rw [hv, hw]
    simp only [validate_input2, if_pos h]
    constructor
    · exact ⟨fun _ => h, fun _ => ⟨_, rfl⟩⟩
    · constructor
      · intro hk
        cases hk
      · intro hk
        exact absurd hk hn
  · have h1 : ¬ v ≥ g.get_num_vertices := fun hc => h (Or.inl hc)
    have h2 : ¬ w ≥ g.get_num_vertices := fun hc => h (Or.inr hc)
    rw [hv, hw]
    simp only [validate_input2, if_neg h, if_neg h1, if_neg h2]
    constructor
    · constructor
      · rintro ⟨_, hk⟩
        cases hk
      · intro hk
        exact absurd hk h
    · constructor
      · intro _
        omega
      · intro _
        trivial

/-- C4 (the code at the failing inputs): on a graph with 5 vertices the
two-argument `validate_input` throws one and the same text when both ids
are out of range, when only `v` is, and when only `w` is; the texts of
its second and third `throw` are never produced. -/
theorem validate_input2_same_what :
    validate_input2 ⟨0, 5⟩ 7 7 = .error (exception.invalid_argument what_v_and_w) ∧
    validate_input2 ⟨0, 5⟩ 7 0 = .error (exception.invalid_argument what_v_and_w) ∧
    validate_input2 ⟨0, 5⟩ 0 7 = .error (exception.invalid_argument what_v_and_w) ∧
    (∀ (g : graph_base) (v w : Nat),
      g.validate_input2 v w ≠ .error (exception.invalid_argument what_only_v) ∧
      g.validate_input2 v w ≠ .error (exception.invalid_argument what_only_w)) := by
  refine ⟨rfl, rfl, rfl, ?_⟩
  intro g v w
  have hv : what_v_and_w ≠ what_only_v := by decide
  have hw : what_v_and_w ≠ what_only_w := by decide
  by_cases h : v ≥ g.get_num_vertices ∨ w ≥ g.get_num_vertices
  · simp only [validate_input2, if_pos h]
    constructor
    · intro hk
      injection hk with hk
      injection hk with hk
      exact hv hk
    · intro hk
      injection hk with hk
      injection hk with hk
      exact hw hk
  · have h1 : ¬ v ≥ g.get_num_vertices := fun hc => h (Or.inl hc)
    have h2 : ¬ w ≥ g.get_num_vertices := fun hc => h (Or.inr hc)
    simp [validate_input2, h1, h2]

/-- Helper: in exact arithmetic, for every graph with
`0 < vertexCount < 2 ^ 32` and every neighbour-count function,
`min_degree()` and `max_degree()` return, and
`min_degree() * vertexCount <= sum of get_num_adj(i) for i in
[0, vertexCount) <= max_degree() * vertexCount`; over the rationals,
`min_degree() <= sum / vertexCount <= max_degree()`. -/
theorem min_sum_max_degree_exact (g : graph_base) (get_num_adj : Nat → Nat) (fuel : Nat)
    (hpos : 0 < g.get_num_vertices)
    (hlt : g.get_num_vertices < vertex_type_size)
    (hfuel : g.get_num_vertices < fuel) :
    ∃ mn mx : Nat,
      g.min_degree get_num_adj fuel = some mn ∧
      g.max_degree get_num_adj fuel = some mx ∧
      mn * g.get_num_vertices ≤ ((List.range g.get_num_vertices).map get_num_adj).sum ∧
      ((List.range g.get_num_vertices).map get_num_adj).sum ≤ mx * g.get_num_vertices ∧
      (mn : ℚ) ≤ (((List.range g.get_num_vertices).map get_num_adj).sum : ℚ)
          / (g.get_num_vertices : ℚ) ∧
      ((((List.range g.get_num_vertices).map get_num_adj).sum : ℚ)
          / (g.get_num_vertices : ℚ)) ≤ (mx : ℚ) := by
  have hlow := mul_length_le_sum get_num_adj _ (List.range g.get_num_vertices)
    (foldl_min_le get_num_adj (List.range g.get_num_vertices) size_t_max).2
  have hhigh := sum_le_mul_length get_num_adj _ (List.range g.get_num_vertices)
    (le_foldl_max get_num_adj (List.range g.get_num_vertices) 0).2
  rw [List.length_range] at hlow hhigh
  have hq : (0 : ℚ) < (g.get_num_vertices : ℚ) := by exact_mod_cast hpos
  refine ⟨_, _, min_degree_eq g get_num_adj fuel hlt hfuel,
    max_degree_eq g get_num_adj fuel hlt hfuel, hlow, hhigh, ?_, ?_⟩
  · rw [le_div_iff₀ hq]
    exact_mod_cast hlow
  · rw [div_le_iff₀ hq]
    exact_mod_cast hhigh

/-- C5 (the code at the failing inputs): on the graph with `2 ^ 32`
vertices, which has `vertexCount > 0`, none of `min_degree()`,
`avg_degree()`, `max_degree()` returns, whatever the fuel. On the graph
with 3 vertices of degree 6776692926030094 each, `avg_degree()` returns the
`double` 6776692926030093, and `min_degree() <= avg_degree()` is false. On
the graph with 6 vertices of degree 6245974334386734 each, `avg_degree()`
returns the `double` 6245974334386735, and `avg_degree() <= max_degree()`
is false. -/
theorem min_avg_max_degree_fails :
    (0 < get_num_vertices ⟨0, 2 ^ 32⟩ ∧
      ∀ fuel : Nat,
        min_degree ⟨0, 2 ^ 32⟩ (fun _ => 1) fuel = none ∧
        avg_degree ⟨0, 2 ^ 32⟩ (fun _ => 1) fuel = none ∧
        max_degree ⟨0, 2 ^ 32⟩ (fun _ => 1) fuel = none) ∧
    (min_degree ⟨0, 3⟩ (fun _ => 6776692926030094) 4 = some 6776692926030094 ∧
      avg_degree ⟨0, 3⟩ (fun _ => 6776692926030094) 4
        = some (double.finite 6776692926030093 1074) ∧
      double.of_size_t 6776692926030093 = double.finite 6776692926030093 1074 ∧
      double.le (double.of_size_t 6776692926030094)
        (double.finite 6776692926030093 1074) = false) ∧
    (max_degree ⟨0, 6⟩ (fun _ => 6245974334386734) 7 = some 6245974334386734 ∧
      avg_degree ⟨0, 6⟩ (fun _ => 6245974334386734) 7
        = some (double.finite 6245974334386735 1074) ∧
      double.of_size_t 6245974334386735 = double.finite 6245974334386735 1074 ∧
      double.le (double.finite 6245974334386735 1074)
        (double.of_size_t 6245974334386734) = false) := by
  refine ⟨⟨by decide, fun fuel => ⟨?_, ?_, ?_⟩⟩, ?_, ?_⟩
  · exact for_each_vertex_none ⟨0, 2 ^ 32⟩ _ (Nat.le_refl _) fuel 0 size_t_max (by decide)
  · unfold avg_degree
    rw [for_each_vertex_none ⟨0, 2 ^ 32⟩ _ (Nat.le_refl _) fuel 0 double.zero (by decide)]
  · exact for_each_vertex_none ⟨0, 2 ^ 32⟩ _ (Nat.le_refl _) fuel 0 0 (by decide)
  · set_option maxRecDepth 100000 in
    exact ⟨by decide, by decide, by decide, by decide⟩
  · set_option maxRecDepth 100000 in
    exact ⟨by decide, by decide, by decide, by decide⟩

/-- C6 (the code at the failing input): on the graph with `2 ^ 32`
vertices, which has `vertexCount > 0`, `avg_degree()` returns no value,
whatever the fuel, so it equals no quotient. -/
theorem avg_degree_no_result_at_two_pow_32 :
    0 < get_num_vertices ⟨0, 2 ^ 32⟩ ∧
    (∀ fuel : Nat, avg_degree ⟨0, 2 ^ 32⟩ (fun _ => 1) fuel = none) ∧
    ¬ ∃ (fuel : Nat) (r : double),
      avg_degree ⟨0, 2 ^ 32⟩ (fun _ => 1) fuel = some r := by
  have hnone : ∀ fuel : Nat, avg_degree ⟨0, 2 ^ 32⟩ (fun _ => 1) fuel = none := by
    intro fuel
    unfold avg_degree
    rw [for_each_vertex_none ⟨0, 2 ^ 32⟩ _ (Nat.le_refl _) fuel 0 double.zero (by decide)]
  refine ⟨by decide, hnone, ?_⟩
  rintro ⟨fuel, r, hr⟩
  rw [hnone fuel] at hr
  cases hr

/-- C7: for unsigned 64-bit values `n` and `m`, the one-argument
constructor yields `get_num_vertices() == n` and `get_num_edges() == 0`,
and the two-argument constructor yields `get_num_vertices() == n` and
`get_num_edges() == m`: the counts survive being printed in decimal and
read back by the stream reader. -/
theorem constructors_from_counts (n m : Nat) (hn : n < 2 ^ 64) (hm : m < 2 ^ 64) :
    (∃ g, from_num_vertices n = .ok g ∧
      g.get_num_vertices = n ∧ g.get_num_edges = 0) ∧
    (∃ g, from_num_vertices_edges n m = .ok g ∧
      g.get_num_vertices = n ∧ g.get_num_edges = m) := by
  have hsp : ∀ c ∈ [' '], c.isWhitespace = true := by decide
  have hnl : ∀ c, ['\n'].head? = some c → c.isWhitespace = true := by
    intro c hc
    cases hc
    rfl
  have key : ∀ k : Nat, k < 2 ^ 64 →
      create_graph cstdin.read_uint64 (put_uint n ++ [' '] ++ put_uint k ++ ['\n'])
        = .ok ({ nedges := k, nvertices := n }, ['\n']) := by
    intro k hk
    obtain ⟨hdn, hnn, hvn⟩ := put_uint_spec n
    obtain ⟨hdk, hnk, hvk⟩ := put_uint_spec k
    have h := create_graph_two_tokens [] (put_uint n) [' '] (put_uint k) ['\n']
      (fun c hc => absurd hc (List.not_mem_nil c)) hdn hnn (by rw [hvn]; exact hn)
      hsp (List.cons_ne_nil _ _) hdk hnk (by rw [hvk]; exact hk) hnl
    rw [hvn, hvk] at h
    rw [← h]
    simp only [List.nil_append, List.append_assoc]
  refine ⟨⟨⟨0, n⟩, ?_, rfl, rfl⟩, ⟨⟨m, n⟩, ?_, rfl, rfl⟩⟩
  · unfold from_num_vertices
    rw [key 0 (by decide)]
  · unfold from_num_vertices_edges
    rw [key m hm]

/-- C7 (witness): the constructors at the largest 64-bit count and at an
edge count of 9. -/
theorem constructors_from_counts_witness :
    (∃ g, from_num_vertices 18446744073709551615 = .ok g ∧
      g.get_num_vertices = 18446744073709551615 ∧ g.get_num_edges = 0) ∧
    (∃ g, from_num_vertices_edges 18446744073709551615 9 = .ok g ∧
      g.get_num_vertices = 18446744073709551615 ∧ g.get_num_edges = 9) :=
  constructors_from_counts 18446744073709551615 9 (by decide) (by decide)

/-- C8: on a stream made of optional whitespace, a token of decimal digits
with 64-bit value `a`, whitespace, a token of decimal digits with 64-bit
value `b`, and then any further content `rest` (empty or starting with
whitespace), construction yields `get_num_vertices() == a` and
`get_num_edges() == b` and leaves exactly `rest` unread. -/
theorem from_stream_header (ws1 t1 ws2 t2 rest : List Char)
    (hws1 : ∀ c ∈ ws1, c.isWhitespace = true)
    (ht1 : ∀ c ∈ t1, c.isDigit = true) (hne1 : t1 ≠ [])
    (hval1 : cstdin.decimal_value t1 < 2 ^ 64)
    (hws2 : ∀ c ∈ ws2, c.isWhitespace = true) (hsep : ws2 ≠ [])
    (ht2 : ∀ c ∈ t2, c.isDigit = true) (hne2 : t2 ≠ [])
    (hval2 : cstdin.decimal_value t2 < 2 ^ 64)
    (hrest : ∀ c, rest.head? = some c → c.isWhitespace = true) :
    ∃ g, from_stream (ws1 ++ t1 ++ (ws2 ++ t2 ++ rest)) = .ok (g, rest) ∧
      g.get_num_vertices = cstdin.decimal_value t1 ∧
      g.get_num_edges = cstdin.decimal_value t2 :=
  ⟨_, create_graph_two_tokens ws1 t1 ws2 t2 rest hws1 ht1 hne1 hval1 hws2 hsep ht2 hne2
    hval2 hrest, rfl, rfl⟩

/-- C8 (witness): the header `5 4` followed by an edge list gives 5
vertices and 4 edges and leaves the edge list unread. -/
theorem from_stream_header_witness :
    ∃ g, from_stream ['5', ' ', '4', '\n', '0', ' ', '1', '\n']
        = .ok (g, ['\n', '0', ' ', '1', '\n']) ∧
      g.get_num_vertices = 5 ∧ g.get_num_edges = 4 :=
  from_stream_header [] ['5'] [' '] ['4'] ['\n', '0', ' ', '1', '\n']
    (by decide) (by decide) (by decide) (by decide) (by decide) (by decide)
    (by decide) (by decide) (by decide)
    (by intro c hc; cases hc; rfl)

/-- C9: construction from a stream fails exactly when the first read fails
or the first read succeeds and the second read, on the stream the first
one left, fails; the error is the one the reader raised; and an object is
produced exactly when both reads succeed, so a failure of the second read
yields no object. This holds for every stream reader. -/
theorem create_graph_fails_iff {σ ε : Type} (read_uint64 : σ → Except ε (Nat × σ))
    (is : σ) :
    (∀ e : ε, create_graph read_uint64 is = .error e ↔
      (read_uint64 is = .error e ∨
        ∃ a is1, read_uint64 is = .ok (a, is1) ∧ read_uint64 is1 = .error e)) ∧
    (∀ (g : graph_base) (is2 : σ), create_graph read_uint64 is = .ok (g, is2) ↔
      ∃ is1, read_uint64 is = .ok (g.get_num_vertices, is1) ∧
        read_uint64 is1 = .ok (g.get_num_edges, is2)) := by
  unfold get_num_vertices get_num_edges
  cases h1 : read_uint64 is with
  | error e1 =>
    rw [create_graph_first_error read_uint64 is e1 h1]
    constructor
    · intro e
      constructor
      · intro h
        cases h
        exact Or.inl rfl
      · rintro (h | ⟨_, _, h, _⟩)
        · cases h
          rfl
        · cases h
    · intro g is2
      constructor
      · intro h
        cases h
      · rintro ⟨_, h, _⟩
        cases h
  | ok r1 =>
    obtain ⟨a, is1⟩ := r1
    cases h2 : read_uint64 is1 with
    | error e2 =>
      rw [create_graph_second_error read_uint64 is is1 a e2 h1 h2]
      constructor
      · intro e
        constructor
        · intro h
          cases h
          exact Or.inr ⟨a, is1, rfl, h2⟩
        · rintro (h | ⟨a1, s1, h, h3⟩)
          · cases h
          · cases h
            rw [h2] at h3
            cases h3
            rfl
      · intro g is2
        constructor
        · intro h
          cases h
        · rintro ⟨s1, h, h3⟩
          cases h
          rw [h2] at h3
          cases h3
    | ok r2 =>
      obtain ⟨b, is2⟩ := r2
      rw [create_graph_both_ok read_uint64 is is1 is2 a b h1 h2]
      constructor
      · intro e
        constructor
        · intro h
          cases h
        · rintro (h | ⟨a1, s1, h, h3⟩)
          · cases h
          · cases h
            rw [h2] at h3
            cases h3
      · intro g s2
        constructor
        · intro h
          cases h
          exact ⟨is1, rfl, h2⟩
        · rintro ⟨s1, h, h3⟩
          cases h
          rw [h2] at h3
          cases h3
          rfl

/-- C10: for an edge connecting `v` and `u`, `get_vertex(v, edge)` returns
`u`, `get_vertex(u, edge)` on the same edge returns `v`, and so
`get_vertex(get_vertex(v, edge), edge)` returns `v`. -/
theorem get_vertex_edge_base_symm (e : edge_base) (v u : Nat)
    (h : e.connects v u) :
    get_vertex_edge_base v e = some u ∧
    get_vertex_edge_base u e = some v ∧
    (get_vertex_edge_base v e).bind (fun x => get_vertex_edge_base x e) = some v := by
  have hv : get_vertex_edge_base v e = some u := by
    unfold get_vertex_edge_base edge_base.get_other
    rcases h with ⟨h1, h2⟩ | ⟨h1, h2⟩
    · rw [if_pos h1.symm, h2]
    · by_cases hvu : v = e.first
      · rw [if_pos hvu, h2, hvu, h1]
      · rw [if_neg hvu, if_pos h2.symm, h1]
  have hu : get_vertex_edge_base u e = some v := by
    unfold get_vertex_edge_base edge_base.get_other
    rcases h with ⟨h1, h2⟩ | ⟨h1, h2⟩
    · by_cases huv : u = e.first
      · rw [if_pos huv, h2, huv, h1]
      · rw [if_neg huv, if_pos h2.symm, h1]
    · rw [if_pos h1.symm, h2]
  refine ⟨hv, hu, ?_⟩
  rw [hv, Option.some_bind]
  exact hu

/-- C10 (witness): the edge with endpoints 2 and 7, asked from 2. -/
theorem get_vertex_edge_base_symm_witness :
    get_vertex_edge_base 2 ⟨2, 7⟩ = some 7 ∧
    get_vertex_edge_base 7 ⟨2, 7⟩ = some 2 ∧
    (get_vertex_edge_base 2 ⟨2, 7⟩).bind (fun x => get_vertex_edge_base x ⟨2, 7⟩) = some 2 :=
  get_vertex_edge_base_symm ⟨2, 7⟩ 2 7 (by decide)

/-- C11: for every known endpoint `v` and every raw vertex id `w`,
`get_vertex(v, w)` returns `w` unchanged, whatever `v` is. -/
theorem get_vertex_raw_id (v w : Nat) :
    get_vertex v w = w ∧ ∀ v1 : Nat, get_vertex v1 w = get_vertex v w := by
  exact ⟨rfl, fun _ => rfl⟩

/-- C12: for every known endpoint `v` and every edge `e`, `get_vertex` on a
shared-ownership reference to `e` and `get_vertex` on an
exclusive-ownership reference to `e` both return what `get_vertex(v, e)`
returns on the edge value itself; for a pointee of another type `E` they
return what `get_vertex` returns on the `edge_base` made from the
pointee. -/
theorem get_vertex_ptr_eq_value (v : Nat) (e : edge_base) :
    get_vertex_shared_ptr id v ⟨some e⟩ = get_vertex_edge_base v e ∧
    get_vertex_unique_ptr id v ⟨some e⟩ = get_vertex_edge_base v e ∧
    (∀ (E : Type) (to_edge_base : E → edge_base) (pointee : E),
      get_vertex_shared_ptr to_edge_base v ⟨some pointee⟩
        = get_vertex_edge_base v (to_edge_base pointee) ∧
      get_vertex_unique_ptr to_edge_base v ⟨some pointee⟩
        = get_vertex_edge_base v (to_edge_base pointee)) := by
  exact ⟨rfl, rfl, fun _ _ _ => ⟨rfl, rfl⟩⟩

/-- C13: `set_num_edges(n)` makes `get_num_edges() == n` and leaves
`get_num_vertices()` unchanged; every other member call that returns
(`get_num_vertices`, `get_num_edges`, `has_vertex`, `degree`, `min_degree`,
`max_degree`, `avg_degree`, both `validate_input`) leaves both counts
unchanged; the calls without a loop always return, and so do the three
with a loop when `vertexCount < 2 ^ 32` and the fuel exceeds `vertexCount`;
and after any sequence of member calls `get_num_vertices()` is what it was
after construction. -/
theorem vertex_count_immutable (get_num_adj : Nat → Nat) (g : graph_base) :
    (∀ n fuel, g.call get_num_adj fuel (method.set_num_edges n)
        = some (g.set_num_edges n, outcome.void) ∧
      (g.set_num_edges n).get_num_edges = n ∧
      (g.set_num_edges n).get_num_vertices = g.get_num_vertices) ∧
    (∀ fuel m g1 r, g.call get_num_adj fuel m = some (g1, r) →
      g1.get_num_vertices = g.get_num_vertices ∧
      (m.is_const = true → g1.get_num_edges = g.get_num_edges ∧ g1 = g)) ∧
    (∀ fuel m, m ≠ method.min_degree → m ≠ method.max_degree → m ≠ method.avg_degree →
      ∃ g1 r, g.call get_num_adj fuel m = some (g1, r)) ∧
    (∀ fuel m, g.get_num_vertices < vertex_type_size → g.get_num_vertices < fuel →
      ∃ g1 r, g.call get_num_adj fuel m = some (g1, r)) ∧
    (∀ fuel ms g1, run get_num_adj fuel g ms = some g1 →
      g1.get_num_vertices = g.get_num_vertices) := by
  refine ⟨fun n fuel => ⟨rfl, rfl, rfl⟩, ?_, ?_, ?_, ?_⟩
  · intro fuel m g1 r h
    obtain ⟨h1, h2⟩ := call_frame get_num_adj fuel g g1 m r h
    refine ⟨h1, fun hc => ?_⟩
    rw [h2 hc]
    exact ⟨rfl, rfl⟩
  · intro fuel m h1 h2 h3
    cases m with
    | min_degree => exact absurd rfl h1
    | max_degree => exact absurd rfl h2
    | avg_degree => exact absurd rfl h3
    | get_num_vertices => exact ⟨_, _, rfl⟩
    | get_num_edges => exact ⟨_, _, rfl⟩
    | degree v => exact ⟨_, _, rfl⟩
    | has_vertex v => exact ⟨_, _, rfl⟩
    | set_num_edges num => exact ⟨_, _, rfl⟩
    | validate_input v => exact ⟨_, _, rfl⟩
    | validate_input2 v w => exact ⟨_, _, rfl⟩
  · intro fuel m hlt hfuel
    cases m with
    | min_degree =>
      simp only [call, min_degree_eq g get_num_adj fuel hlt hfuel]
      exact ⟨_, _, rfl⟩
    | max_degree =>
      simp only [call, max_degree_eq g get_num_adj fuel hlt hfuel]
      exact ⟨_, _, rfl⟩
    | avg_degree =>
      simp only [call, avg_degree_eq g get_num_adj fuel hlt hfuel]
      exact ⟨_, _, rfl⟩
    | get_num_vertices => exact ⟨_, _, rfl⟩
    | get_num_edges => exact ⟨_, _, rfl⟩
    | degree v => exact ⟨_, _, rfl⟩
    | has_vertex v => exact ⟨_, _, rfl⟩
    | set_num_edges num => exact ⟨_, _, rfl⟩
    | validate_input v => exact ⟨_, _, rfl⟩
    | validate_input2 v w => exact ⟨_, _, rfl⟩
  · intro fuel ms g1 h
    exact run_nvertices get_num_adj fuel ms g g1 h

/-- C15: for every graph with `0 < vertexCount < 2 ^ 32` whose neighbour
counts are `size_t` values, `min_degree()` and `max_degree()` return,
`min_degree() <= get_num_adj(v) <= max_degree()` for every valid `v`, and
each of the two results is `get_num_adj(u)` for some valid `u`. -/
theorem min_max_degree_extremal (g : graph_base) (get_num_adj : Nat → Nat) (fuel : Nat)
    (hpos : 0 < g.get_num_vertices)
    (hlt : g.get_num_vertices < vertex_type_size)
    (hfuel : g.get_num_vertices < fuel)
    (hadj : ∀ v, v < g.get_num_vertices → get_num_adj v ≤ size_t_max) :
    ∃ mn mx : Nat,
      g.min_degree get_num_adj fuel = some mn ∧
      g.max_degree get_num_adj fuel = some mx ∧
      (∀ v, v < g.get_num_vertices → mn ≤ get_num_adj v ∧ get_num_adj v ≤ mx) ∧
      (∃ u, u < g.get_num_vertices ∧ mn = get_num_adj u) ∧
      (∃ u, u < g.get_num_vertices ∧ mx = get_num_adj u) := by
  have h0 : 0 ∈ List.range g.get_num_vertices := List.mem_range.mpr hpos
  obtain ⟨_, hmin⟩ := foldl_min_le get_num_adj (List.range g.get_num_vertices) size_t_max
  obtain ⟨_, hmax⟩ := le_foldl_max get_num_adj (List.range g.get_num_vertices) 0
  refine ⟨_, _, min_degree_eq g get_num_adj fuel hlt hfuel,
    max_degree_eq g get_num_adj fuel hlt hfuel, ?_, ?_, ?_⟩
  · intro v hv
    exact ⟨hmin v (List.mem_range.mpr hv), hmax v (List.mem_range.mpr hv)⟩
  · rcases foldl_min_attained get_num_adj (List.range g.get_num_vertices) size_t_max
      with h | ⟨j, hj, h⟩
    · refine ⟨0, hpos, ?_⟩
      have h1 := hmin 0 h0
      have h2 := hadj 0 hpos
      rw [h] at h1 ⊢
      exact Nat.le_antisymm h1 h2
    · exact ⟨j, List.mem_range.mp hj, h⟩
  · rcases foldl_max_attained get_num_adj (List.range g.get_num_vertices) 0
      with h | ⟨j, hj, h⟩
    · refine ⟨0, hpos, ?_⟩
      have h1 := hmax 0 h0
      rw [h] at h1 ⊢
      omega
    · exact ⟨j, List.mem_range.mp hj, h⟩

/-- C15 (witness): the graph with 3 vertices whose neighbour counts are
2, 3, 4. -/
theorem min_max_degree_extremal_witness :
    ∃ mn mx : Nat,
      min_degree ⟨0, 3⟩ (fun i => i + 2) 4 = some mn ∧
      max_degree ⟨0, 3⟩ (fun i => i + 2) 4 = some mx ∧
      (∀ v, v < get_num_vertices ⟨0, 3⟩ → mn ≤ v + 2 ∧ v + 2 ≤ mx) ∧
      (∃ u, u < get_num_vertices ⟨0, 3⟩ ∧ mn = u + 2) ∧
      (∃ u, u < get_num_vertices ⟨0, 3⟩ ∧ mx = u + 2) :=
  min_max_degree_extremal ⟨0, 3⟩ (fun i => i + 2) 4 (by decide) (by decide) (by decide)
    (by
      intro v hv
      have h3 : v < 3 := hv
      have hmax : size_t_max = 18446744073709551615 := by decide
      rw [hmax]
      show v + 2 ≤ 18446744073709551615
      omega)

/-- C16: on a graph with `vertexCount == 0`, `min_degree()` returns
`2 ^ 64 - 1` and `max_degree()` returns 0, so there `min_degree()` is
above `max_degree()`; and on any graph on which both return,
`min_degree() <= max_degree()` holds exactly when `vertexCount > 0`. -/
theorem min_max_degree_empty (g : graph_base) (get_num_adj : Nat → Nat) (fuel : Nat)
    (hfuel : 0 < fuel) :
    (g.get_num_vertices = 0 →
      g.min_degree get_num_adj fuel = some (2 ^ 64 - 1) ∧
      g.max_degree get_num_adj fuel = some 0) ∧
    (∀ mn mx, g.min_degree get_num_adj fuel = some mn →
      g.max_degree get_num_adj fuel = some mx →
      ((g.get_num_vertices = 0 → mx < mn) ∧ (mn ≤ mx ↔ 0 < g.get_num_vertices))) := by
  have hbig : size_t_max = 2 ^ 64 - 1 := rfl
  constructor
  · intro h0
    have hlt : g.get_num_vertices < vertex_type_size := by
      rw [h0]
      decide
    rw [min_degree_eq g get_num_adj fuel hlt (by omega),
      max_degree_eq g get_num_adj fuel hlt (by omega), h0]
    exact ⟨rfl, rfl⟩
  · intro mn mx hmn hmx
    obtain ⟨hlt, hf⟩ := for_each_vertex_some_bounds g _ fuel _ mn hmn
    rw [min_degree_eq g get_num_adj fuel hlt hf] at hmn
    rw [max_degree_eq g get_num_adj fuel hlt hf] at hmx
    have hmn1 := Option.some.inj hmn
    have hmx1 := Option.some.inj hmx
    by_cases h0 : g.get_num_vertices = 0
    · rw [h0] at hmn1 hmx1
      simp only [List.range_zero, List.foldl_nil] at hmn1 hmx1
      rw [hbig] at hmn1
      have hz : ¬ 0 < g.get_num_vertices := by omega
      refine ⟨fun _ => by omega, ?_⟩
      constructor
      · intro hle
        omega
      · intro hp
        exact absurd hp hz
    · have hpos : 0 < g.get_num_vertices := Nat.pos_of_ne_zero h0
      have hm := List.mem_range.mpr hpos
      have h1 := (foldl_min_le get_num_adj (List.range g.get_num_vertices) size_t_max).2 0 hm
      have h2 := (le_foldl_max get_num_adj (List.range g.get_num_vertices) 0).2 0 hm
      rw [hmn1] at h1
      rw [hmx1] at h2
      refine ⟨fun h => absurd h h0, ?_⟩
      constructor
      · intro _
        exact hpos
      · intro _
        exact le_trans h1 h2

/-- C16 (witness): the graph without vertices, after one loop test. -/
theorem min_max_degree_empty_witness :
    (get_num_vertices ⟨0, 0⟩ = 0 →
      min_degree ⟨0, 0⟩ (fun i => i + 2) 1 = some (2 ^ 64 - 1) ∧
      max_degree ⟨0, 0⟩ (fun i => i + 2) 1 = some 0) ∧
    (∀ mn mx, min_degree ⟨0, 0⟩ (fun i => i + 2) 1 = some mn →
      max_degree ⟨0, 0⟩ (fun i => i + 2) 1 = some mx →
      ((get_num_vertices ⟨0, 0⟩ = 0 → mx < mn) ∧
        (mn ≤ mx ↔ 0 < get_num_vertices ⟨0, 0⟩))) :=
  min_max_degree_empty ⟨0, 0⟩ (fun i => i + 2) 1 (by decide)

/-- C14: on a graph with `vertexCount == 0`, `avg_degree()` returns (the
loop exits at its first test and the division raises nothing), and the
value returned is the `double` quotient `0.0 / 0.0`, which is a
not-a-number. -/
theorem avg_degree_nan_of_no_vertices (g : graph_base) (get_num_adj : Nat → Nat)
    (fuel : Nat) (h0 : g.get_num_vertices = 0) (hfuel : 0 < fuel) :
    ∃ r : double,
      g.avg_degree get_num_adj fuel = some r ∧
      r = double.div double.zero (double.of_size_t g.get_num_vertices) ∧
      r = double.div double.zero double.zero ∧
      r.isNaN = true := by
  refine ⟨_, avg_degree_no_vertices g get_num_adj fuel h0 hfuel, ?_, ?_, ?_⟩
  · rw [h0]
  · decide
  · decide

/-- C14 (witness): the graph without vertices and with 4 edges declared,
after one loop test. -/
theorem avg_degree_nan_of_no_vertices_witness :
    ∃ r : double,
      avg_degree ⟨4, 0⟩ (fun i => i + 2) 1 = some r ∧
      r = double.div double.zero (double.of_size_t (get_num_vertices ⟨4, 0⟩)) ∧
      r = double.div double.zero double.zero ∧
      r.isNaN = true :=
  avg_degree_nan_of_no_vertices ⟨4, 0⟩ (fun i => i + 2) 1 (by decide) (by decide)

end algs4
